import Mathlib

/-!
Verification of the n-pendulum dynamics core (pendulum.rs, solver.rs, gui.rs).

The Rust code computes over `f32`; here the arithmetic is idealised over `ℚ`
(exact rationals) and the trigonometric `sin` of the standard library is an
abstract parameter `sinF : ℚ → ℚ`, so every statement below is about the
algebraic structure of the code, not about floating-point rounding.
Parameter and state arrays (`&[f32]` slices) are modelled as total functions
`ℕ → ℚ`; a loop `for i in 0..n` that writes `out[i]` becomes a function whose
value at `i < n` is the written expression.
-/

namespace PendulumLab

/-- Constant `MAX_LINKS` from pendulum.rs. -/
def MAX_LINKS : ℕ := 7

/-- Constant `HISTORY_SECONDS` from pendulum.rs. -/
def HISTORY_SECONDS : ℚ := 60

/-- Constant `HISTORY_SAMPLES` from pendulum.rs. -/
def HISTORY_SAMPLES : ℕ := 1024

/-- Gravitational constant `g = 9.81f32` from `accelerations_impl`. -/
def gravity : ℚ := 981/100

/-- Coupling constant `k = 5.0f32` from `accelerations_impl`. -/
def couplingK : ℚ := 5

/-- Degeneracy threshold `1e-12` on the moment of inertia from
`accelerations_impl`. -/
def epsInertia : ℚ := 1/1000000000000

/-- `accelerations_impl` from pendulum.rs: torque balance per link.
The Rust loop writes `out[i]` for `i < n`; this function gives the value
written at index `i`.  The `_omegas` argument is present (and unused) exactly
as in the source. -/
def accelerations_impl (sinF : ℚ → ℚ) (n : ℕ) (lengths masses thetas _omegas : ℕ → ℚ)
    (i : ℕ) : ℚ :=
  let torque0 := -gravity / lengths i * sinF (thetas i)
  let torque1 := if 0 < i then torque0 + (-couplingK * (thetas i - thetas (i - 1))) else torque0
  let torque2 := if i + 1 < n then torque1 + (-couplingK * (thetas i - thetas (i + 1))) else torque1
  let im := masses i * lengths i * lengths i
  if |im| < epsInertia then 0 else torque2 / im

/-- `deriv_impl` from pendulum.rs: the packed derivative
`out[2i] = y[2i+1]`, `out[2i+1] = acc[i]`, where the local `thetas`/`omegas`
arrays are unpacked from `y` as `thetas[i] = y[2i]`, `omegas[i] = y[2i+1]`. -/
def deriv_impl (sinF : ℚ → ℚ) (n : ℕ) (lengths masses : ℕ → ℚ) (y : ℕ → ℚ) (j : ℕ) : ℚ :=
  if j % 2 = 0 then y (j + 1)
  else accelerations_impl sinF n lengths masses (fun i => y (2 * i)) (fun i => y (2 * i + 1)) (j / 2)

/-- The packing loop at the top of `step_rk4` (solver.rs):
`y_local` starts as a zero array and gets `y_local[2i] = theta[i]`,
`y_local[2i+1] = omega[i]` for `i < n`. -/
def packY (n : ℕ) (theta omega : ℕ → ℚ) (j : ℕ) : ℚ :=
  if j / 2 < n then (if j % 2 = 0 then theta (j / 2) else omega (j / 2)) else 0

/-- `step_rk4` from solver.rs: one classical RK4 step on the interleaved
state.  Each `tmp` buffer starts as zeros and is written for `j < 2n`
(`tmp[i] = y_local[i] + 0.5*dt*k[i]` resp. `+ dt*k3[i]`), so it is modelled as
a function that is the written expression below `2n` and `0` elsewhere.
The update loop writes `theta[i]`/`omega[i]` only for `i < n` (the Rust slices
have length `n`), hence the `if i < n` gate. -/
def step_rk4 (sinF : ℚ → ℚ) (n : ℕ) (lengths masses theta omega : ℕ → ℚ) (dt : ℚ) :
    (ℕ → ℚ) × (ℕ → ℚ) :=
  let y := packY n theta omega
  let k1 := deriv_impl sinF n lengths masses y
  let k2 := deriv_impl sinF n lengths masses
    (fun j => if j < 2 * n then y j + 1/2 * dt * k1 j else 0)
  let k3 := deriv_impl sinF n lengths masses
    (fun j => if j < 2 * n then y j + 1/2 * dt * k2 j else 0)
  let k4 := deriv_impl sinF n lengths masses
    (fun j => if j < 2 * n then y j + dt * k3 j else 0)
  (fun i => if i < n then
      theta i + dt/6 * (k1 (2*i) + 2 * k2 (2*i) + 2 * k3 (2*i) + k4 (2*i))
    else theta i,
   fun i => if i < n then
      omega i + dt/6 * (k1 (2*i+1) + 2 * k2 (2*i+1) + 2 * k3 (2*i+1) + k4 (2*i+1))
    else omega i)

/-- The GUI-side simulation state (gui.rs `NPendulumApp`): per-link angle,
angular velocity, and history buffer (a `VecDeque<(f32,f32)>`, modelled as a
list with front at the head). -/
structure SimState where
  theta : ℕ → ℚ
  omega : ℕ → ℚ
  hist : ℕ → List (ℚ × ℚ)

/-- The eviction `while` loop of `push_histories` (gui.rs): pop from the
front while the front sample is older than `HISTORY_SECONDS` relative to `t`
or the buffer holds more than `HISTORY_SAMPLES` samples. -/
def evict (t : ℚ) : List (ℚ × ℚ) → List (ℚ × ℚ)
  | [] => []
  | (old, v) :: rest =>
      if HISTORY_SECONDS < t - old ∨ HISTORY_SAMPLES < rest.length + 1 then evict t rest
      else (old, v) :: rest

/-- One insertion into a link's history buffer (`push_histories` body):
`push_back((t, theta))` followed by the eviction loop. -/
def pushSample (t v : ℚ) (h : List (ℚ × ℚ)) : List (ℚ × ℚ) :=
  evict t (h ++ [(t, v)])

/-- `NPendulumApp::push_histories` (gui.rs), with the wall-clock sample time
`t = start_time.elapsed()` passed in as a parameter. -/
def push_histories (n : ℕ) (t : ℚ) (st : SimState) : SimState :=
  { st with hist := fun i => if i < n then pushSample t (st.theta i) (st.hist i) else st.hist i }

/-- `NPendulumApp::step_rk4` (gui.rs): copy the first `n` link parameters into
zero-initialised local arrays and invoke the solver on the length-`n` slices. -/
def guiStepRK4 (sinF : ℚ → ℚ) (n : ℕ) (lengths masses : ℕ → ℚ) (dt : ℚ)
    (st : SimState) : SimState :=
  let ll := fun i => if i < n then lengths i else 0
  let mm := fun i => if i < n then masses i else 0
  let p := step_rk4 sinF n ll mm st.theta st.omega dt
  { st with theta := p.1, omega := p.2 }

/-- `NPendulumApp::reset_state` (gui.rs): for `i < n`, set
`theta[i] = init_theta[i]`, `omega[i] = 0`, and clear `histories[i]`;
every index at or beyond `n` is untouched. -/
def reset_state (n : ℕ) (init : ℕ → ℚ) (st : SimState) : SimState :=
  { theta := fun i => if i < n then init i else st.theta i,
    omega := fun i => if i < n then 0 else st.omega i,
    hist := fun i => if i < n then [] else st.hist i }

/-- An `f32` value as far as the frame-time clamp is concerned: NaN, the two
infinities, or a finite value (idealised as a rational). -/
inductive F32 where
  | nan : F32
  | inf : F32
  | ninf : F32
  | fin : ℚ → F32
deriving DecidableEq

/-- Rust `f32::min`: if either argument is NaN the other is returned,
otherwise the smaller value. -/
def fmin : F32 → F32 → F32
  | F32.nan, b => b
  | a, F32.nan => a
  | F32.ninf, _ => F32.ninf
  | _, F32.ninf => F32.ninf
  | F32.inf, b => b
  | a, F32.inf => a
  | F32.fin a, F32.fin b => F32.fin (min a b)

/-- Rust `f32::max`: if either argument is NaN the other is returned,
otherwise the larger value. -/
def fmax : F32 → F32 → F32
  | F32.nan, b => b
  | a, F32.nan => a
  | F32.inf, _ => F32.inf
  | _, F32.inf => F32.inf
  | F32.ninf, b => b
  | a, F32.ninf => a
  | F32.fin a, F32.fin b => F32.fin (max a b)

/-- The frame-time clamp from `NPendulumApp::update` (gui.rs):
`dt.min(0.05).max(0.0)`. -/
def clampDt (e : F32) : F32 := fmax (fmin e (F32.fin (1/20))) (F32.fin 0)

/-- The sub-step count from `NPendulumApp::update` (gui.rs):
`((dt/0.005).ceil() as usize).max(1)` (the `as usize` cast saturates at 0 on
negative values, as `Int.toNat` does). -/
def substeps (c : ℚ) : ℕ := max (Int.toNat ⌈c / (5/1000)⌉) 1

/-- The integration loop body of `NPendulumApp::update`: `steps` iterations of
`self.step_rk4(sub); self.push_histories();`, where `tOf s` is the wall-clock
time observed by the `s`-th call to `push_histories`. -/
def runSub (sinF : ℚ → ℚ) (n : ℕ) (lengths masses : ℕ → ℚ) (sub : ℚ) (tOf : ℕ → ℚ) :
    ℕ → SimState → SimState
  | 0, st => st
  | Nat.succ k, st =>
      runSub sinF n lengths masses sub (fun s => tOf (s + 1)) k
        (push_histories n (tOf 0) (guiStepRK4 sinF n lengths masses sub st))

/-- The timing-and-integration block of `NPendulumApp::update` (gui.rs):
clamp the elapsed time, and if the clamped value is positive run
`steps = ((dt/0.005).ceil() as usize).max(1)` sub-steps of size `dt/steps`.
The clamp of any `F32` value is finite, so the catch-all arm is dead code. -/
def advance (sinF : ℚ → ℚ) (n : ℕ) (lengths masses : ℕ → ℚ) (tOf : ℕ → ℚ)
    (e : F32) (st : SimState) : SimState :=
  match clampDt e with
  | F32.fin c =>
      if 0 < c then
        runSub sinF n lengths masses (c / (substeps c : ℚ)) tOf (substeps c) st
      else st
  | _ => st

/-- Bounds-checked model of `for i in 0..m { buf[i] = vals[i] }` writing into
a fixed array of capacity `cap`: Rust panics (here: `none`) on the first write
with `i ≥ cap`. -/
def storeLoop (cap : ℕ) (vals : ℕ → ℚ) : ℕ → (ℕ → ℚ) → Option (ℕ → ℚ)
  | 0, buf => some buf
  | Nat.succ k, buf =>
      match storeLoop cap vals k buf with
      | none => none
      | some b => if k < cap then some (Function.update b k (vals k)) else none

/-- Bounds-checked model of the packing loop of `step_rk4`:
`for i in 0..n { y_local[2i] = theta[i]; y_local[2i+1] = omega[i] }` into the
`[0.0f32; 2 * MAX_LINKS]` local array. -/
def packLoop (cap : ℕ) (theta omega : ℕ → ℚ) : ℕ → (ℕ → ℚ) → Option (ℕ → ℚ)
  | 0, buf => some buf
  | Nat.succ k, buf =>
      match packLoop cap theta omega k buf with
      | none => none
      | some b =>
          if 2 * k < cap then
            if 2 * k + 1 < cap then
              some (Function.update (Function.update b (2 * k) (theta k)) (2 * k + 1) (omega k))
            else none
          else none

/-- `deriv_impl` with the bounds checks of its `[0.0f32; MAX_LINKS]` local
arrays made explicit: unpacking `y` into the local `thetas`/`omegas` arrays
panics (returns `none`) when `n > MAX_LINKS`. -/
def deriv_checked (sinF : ℚ → ℚ) (n : ℕ) (lengths masses y : ℕ → ℚ) : Option (ℕ → ℚ) :=
  match storeLoop MAX_LINKS (fun i => y (2 * i)) n (fun _ => 0) with
  | none => none
  | some thetas =>
      match storeLoop MAX_LINKS (fun i => y (2 * i + 1)) n (fun _ => 0) with
      | none => none
      | some omegas =>
          some (fun j => if j % 2 = 0 then y (j + 1)
                else accelerations_impl sinF n lengths masses thetas omegas (j / 2))

/-- `step_rk4` with the bounds checks of its `[0.0f32; 2 * MAX_LINKS]` local
arrays (`y_local` and `tmp`) made explicit, the `tmp` loops running over
`0..2n`. -/
def step_rk4_checked (sinF : ℚ → ℚ) (n : ℕ) (lengths masses theta omega : ℕ → ℚ)
    (dt : ℚ) : Option ((ℕ → ℚ) × (ℕ → ℚ)) :=
  match packLoop (2 * MAX_LINKS) theta omega n (fun _ => 0) with
  | none => none
  | some y =>
      match deriv_checked sinF n lengths masses y with
      | none => none
      | some k1 =>
          match storeLoop (2 * MAX_LINKS) (fun j => y j + 1/2 * dt * k1 j) (2 * n) (fun _ => 0) with
          | none => none
          | some tmp1 =>
              match deriv_checked sinF n lengths masses tmp1 with
              | none => none
              | some k2 =>
                  match storeLoop (2 * MAX_LINKS) (fun j => y j + 1/2 * dt * k2 j) (2 * n) (fun _ => 0) with
                  | none => none
                  | some tmp2 =>
                      match deriv_checked sinF n lengths masses tmp2 with
                      | none => none
                      | some k3 =>
                          match storeLoop (2 * MAX_LINKS) (fun j => y j + dt * k3 j) (2 * n) (fun _ => 0) with
                          | none => none
                          | some tmp3 =>
                              match deriv_checked sinF n lengths masses tmp3 with
                              | none => none
                              | some k4 =>
                                  some
                                    (fun i => if i < n then
                                        theta i + dt/6 * (k1 (2*i) + 2 * k2 (2*i) + 2 * k3 (2*i) + k4 (2*i))
                                      else theta i,
                                     fun i => if i < n then
                                        omega i + dt/6 * (k1 (2*i+1) + 2 * k2 (2*i+1) + 2 * k3 (2*i+1) + k4 (2*i+1))
                                      else omega i)

/-- The RK4 scheme exactly as the spec words it (§4.3): `k1 = f(y)`,
`k2 = f(y + dt/2 · k1)`, `k3 = f(y + dt/2 · k2)`, `k4 = f(y + dt · k3)` on the
packed state `y = [θ₀, ω₀, θ₁, ω₁, …]`, then the `dt/6`-weighted update.
This is the comparison definition for the refinement claim about `step_rk4`. -/
def rk4_spec (sinF : ℚ → ℚ) (n : ℕ) (lengths masses theta omega : ℕ → ℚ) (dt : ℚ) :
    (ℕ → ℚ) × (ℕ → ℚ) :=
  let f := deriv_impl sinF n lengths masses
  let y : ℕ → ℚ := fun j => if j % 2 = 0 then theta (j / 2) else omega (j / 2)
  let k1 := f y
  let k2 := f (fun j => y j + dt/2 * k1 j)
  let k3 := f (fun j => y j + dt/2 * k2 j)
  let k4 := f (fun j => y j + dt * k3 j)
  (fun i => theta i + dt/6 * (k1 (2*i) + 2 * k2 (2*i) + 2 * k3 (2*i) + k4 (2*i)),
   fun i => omega i + dt/6 * (k1 (2*i+1) + 2 * k2 (2*i+1) + 2 * k3 (2*i+1) + k4 (2*i+1)))

/-- The history buffer contents produced by a sequence of pushes starting from
an empty buffer (the initial state, and also the state right after
`reset_state` clears the buffer). -/
def runPushes (ops : List (ℚ × ℚ)) : List (ℚ × ℚ) :=
  ops.foldl (fun h op => pushSample op.1 op.2 h) []

section Arith

/-- The index `2*i+1` is odd. -/
lemma two_mul_add_one_mod (i : ℕ) : (2 * i + 1) % 2 = 1 := by omega

/-- The index `2*i` is even. -/
lemma two_mul_mod (i : ℕ) : (2 * i) % 2 = 0 := by omega

lemma two_mul_add_one_div (i : ℕ) : (2 * i + 1) / 2 = i := by omega

lemma two_mul_div (i : ℕ) : (2 * i) / 2 = i := by omega

end Arith

/-- Claim C9: the computed angular accelerations are independent of the
angular velocities — the torque model has no damping term.  First conjunct:
`accelerations_impl` gives the same output for any two velocity arrays.
Second conjunct: the acceleration outputs of `deriv_impl` (the odd-indexed
entries) agree for any two packed states with the same angle (even) entries. -/
theorem C9_acceleration_velocity_independent (sinF : ℚ → ℚ) (n : ℕ)
    (lengths masses thetas om om' : ℕ → ℚ) (_h1 : 1 ≤ n) (_h2 : n ≤ MAX_LINKS) :
    (∀ i, accelerations_impl sinF n lengths masses thetas om i =
          accelerations_impl sinF n lengths masses thetas om' i) ∧
    (∀ y y' : ℕ → ℚ, (∀ j, y (2 * j) = y' (2 * j)) → ∀ i,
        deriv_impl sinF n lengths masses y (2 * i + 1) =
        deriv_impl sinF n lengths masses y' (2 * i + 1)) := by
  constructor
  · intro i; rfl
  · intro y y' hy i
    have hth : (fun j => y (2 * j)) = (fun j => y' (2 * j)) := funext hy
    simp only [deriv_impl, two_mul_add_one_mod, two_mul_add_one_div]
    rw [if_neg (by norm_num), if_neg (by norm_num), hth]
    rfl

/-- Witness for C9 at a concrete input. -/
theorem C9_witness :
    1 ≤ 1 ∧ 1 ≤ MAX_LINKS ∧
    (∀ i, accelerations_impl (fun x => x) 1 (fun _ => 1) (fun _ => 1) (fun _ => 0)
            (fun _ => 3) i =
          accelerations_impl (fun x => x) 1 (fun _ => 1) (fun _ => 1) (fun _ => 0)
            (fun _ => 4) i) := by
  refine ⟨le_refl 1, by norm_num [MAX_LINKS], ?_⟩
  exact (C9_acceleration_velocity_independent (fun x => x) 1 (fun _ => 1) (fun _ => 1)
    (fun _ => 0) (fun _ => 3) (fun _ => 4) (le_refl 1) (by norm_num [MAX_LINKS])).1

/-- Claim C4: a link whose moment of inertia has magnitude below `1e-12`
gets acceleration exactly `0`, both from `accelerations_impl` and (for any
packed state `y`) from the odd-indexed output of `deriv_impl`; the division
branch is never taken. -/
theorem C4_degenerate_inertia_zero (sinF : ℚ → ℚ) (n : ℕ)
    (lengths masses thetas om : ℕ → ℚ) (i : ℕ)
    (him : |masses i * lengths i * lengths i| < epsInertia) :
    accelerations_impl sinF n lengths masses thetas om i = 0 ∧
    (∀ y : ℕ → ℚ, deriv_impl sinF n lengths masses y (2 * i + 1) = 0) := by
  constructor
  · simp only [accelerations_impl]
    rw [if_pos him]
  · intro y
    simp only [deriv_impl, two_mul_add_one_mod, two_mul_add_one_div]
    norm_num
    simp only [accelerations_impl]
    rw [if_pos him]

/-- Witness for C4: a link with `mass = 0` has acceleration `0`. -/
theorem C4_witness :
    |(fun _ : ℕ => (0:ℚ)) 0 * (fun _ : ℕ => (1:ℚ)) 0 * (fun _ : ℕ => (1:ℚ)) 0| < epsInertia ∧
    accelerations_impl (fun x => x) 1 (fun _ => 1) (fun _ => 0) (fun _ => 1) (fun _ => 0) 0 = 0 := by
  have h : |(fun _ : ℕ => (0:ℚ)) 0 * (fun _ : ℕ => (1:ℚ)) 0 * (fun _ : ℕ => (1:ℚ)) 0| < epsInertia := by
    norm_num [epsInertia]
  exact ⟨h, (C4_degenerate_inertia_zero (fun x => x) 1 (fun _ => 1) (fun _ => 0)
    (fun _ => 1) (fun _ => 0) 0 h).1⟩

/-- Claim C10: `reset_state` and one GUI-level RK4 step leave every link with
index at or beyond the active count `n` untouched: angle, angular velocity,
and (for reset) the history buffer of such a link are unchanged. -/
theorem C10_frame_inactive_links (sinF : ℚ → ℚ) (n : ℕ)
    (init lengths masses : ℕ → ℚ) (dt : ℚ) (st : SimState) (i : ℕ)
    (hi : n ≤ i) (_hmax : i < MAX_LINKS) :
    (reset_state n init st).theta i = st.theta i ∧
    (reset_state n init st).omega i = st.omega i ∧
    (reset_state n init st).hist i = st.hist i ∧
    (guiStepRK4 sinF n lengths masses dt st).theta i = st.theta i ∧
    (guiStepRK4 sinF n lengths masses dt st).omega i = st.omega i := by
  have hni : ¬ i < n := not_lt.mpr hi
  refine ⟨?_, ?_, ?_, ?_, ?_⟩
  · simp [reset_state, hni]
  · simp [reset_state, hni]
  · simp [reset_state, hni]
  · simp only [guiStepRK4, step_rk4]
    simp [hni]
  · simp only [guiStepRK4, step_rk4]
    simp [hni]

/-- Witness for C10 at a concrete input: `n = 2`, link index `3`. -/
theorem C10_witness :
    2 ≤ 3 ∧ 3 < MAX_LINKS ∧
    (reset_state 2 (fun _ => 1) ⟨fun i => (i : ℚ), fun _ => 5, fun _ => [(0, 0)]⟩).theta 3 =
      (3 : ℚ) := by
  refine ⟨by norm_num, by norm_num [MAX_LINKS], ?_⟩
  have h := (C10_frame_inactive_links (fun x => x) 2 (fun _ => 1) (fun _ => 1) (fun _ => 1)
    (1/100) ⟨fun i => (i : ℚ), fun _ => 5, fun _ => [(0, 0)]⟩ 3 (by norm_num)
    (by norm_num [MAX_LINKS])).1
  rw [h]; norm_num

/-- Claim C1: for a link whose moment of inertia is not degenerate, the
derivative function on the interleaved packed state `[θ₀, ω₀, θ₁, ω₁, …]`
returns `d(angle[i])/dt = angular_velocity[i]` and
`angular_acceleration[i]` equal to the torque sum (gravity term, plus the
coupling to the previous link when `i > 0`, plus the coupling to the next
link when `i + 1 < n`, with `g = 9.81` and `k = 5.0`) divided by the moment
of inertia `mass[i]·length[i]²`. -/
theorem C1_deriv_torque_formula (sinF : ℚ → ℚ) (n : ℕ)
    (lengths masses thetas omegas : ℕ → ℚ) (i : ℕ)
    (_h1 : 1 ≤ n) (_h2 : n ≤ MAX_LINKS) (_hi : i < n)
    (him : epsInertia ≤ |masses i * lengths i * lengths i|) :
    deriv_impl sinF n lengths masses
      (fun j => if j % 2 = 0 then thetas (j / 2) else omegas (j / 2)) (2 * i) = omegas i ∧
    deriv_impl sinF n lengths masses
      (fun j => if j % 2 = 0 then thetas (j / 2) else omegas (j / 2)) (2 * i + 1) =
      (-(981/100) / lengths i * sinF (thetas i)
        + (if 0 < i then -(5:ℚ) * (thetas i - thetas (i - 1)) else 0)
        + (if i + 1 < n then -(5:ℚ) * (thetas i - thetas (i + 1)) else 0))
      / (masses i * lengths i * lengths i) := by
  have hpack : (fun i' => if (2 * i') % 2 = 0 then thetas ((2 * i') / 2)
      else omegas ((2 * i') / 2)) = thetas := by
    funext i'
    simp [two_mul_mod, two_mul_div]
  constructor
  · simp only [deriv_impl, two_mul_mod, if_pos]
    have hodd : (2 * i + 1) % 2 = 1 := two_mul_add_one_mod i
    rw [if_neg (by rw [hodd]; norm_num), two_mul_add_one_div]
  · simp only [deriv_impl, two_mul_add_one_mod, two_mul_add_one_div]
    rw [if_neg (by norm_num), hpack]
    simp only [accelerations_impl]
    rw [if_neg (not_lt.mpr him)]
    simp only [gravity, couplingK]
    split_ifs with hprev hnext hnext <;> ring

/-- Witness for C1 at a concrete input (`n = 2`, `i = 0`, unit parameters). -/
theorem C1_witness :
    (1 ≤ 2 ∧ 2 ≤ MAX_LINKS ∧ 0 < 2 ∧
      epsInertia ≤ |(fun _ : ℕ => (1:ℚ)) 0 * (fun _ : ℕ => (1:ℚ)) 0 * (fun _ : ℕ => (1:ℚ)) 0|) ∧
    deriv_impl (fun x => x) 2 (fun _ => 1) (fun _ => 1)
      (fun j => if j % 2 = 0 then (fun k => (k : ℚ)) (j / 2) else (fun _ => (9:ℚ)) (j / 2))
      (2 * 0) = 9 := by
  have him : epsInertia ≤ |(fun _ : ℕ => (1:ℚ)) 0 * (fun _ : ℕ => (1:ℚ)) 0 * (fun _ : ℕ => (1:ℚ)) 0| := by
    norm_num [epsInertia]
  exact ⟨⟨by norm_num, by norm_num [MAX_LINKS], by norm_num, him⟩,
    (C1_deriv_torque_formula (fun x => x) 2 (fun _ => 1) (fun _ => 1) (fun k => (k : ℚ))
      (fun _ => 9) 0 (by norm_num) (by norm_num [MAX_LINKS]) (by norm_num) him).1⟩

/-- `accelerations_impl` reads only the first `n` entries of each array:
slicewise-equal inputs give equal outputs at every active index. -/
lemma accelerations_congr (sinF : ℚ → ℚ) (n : ℕ)
    (lengths lengths' masses masses' thetas thetas' om om' : ℕ → ℚ)
    (hl : ∀ i < n, lengths i = lengths' i) (hm : ∀ i < n, masses i = masses' i)
    (hth : ∀ i < n, thetas i = thetas' i) :
    ∀ i < n, accelerations_impl sinF n lengths masses thetas om i =
        accelerations_impl sinF n lengths' masses' thetas' om' i := by
  intro i hi
  have hprev : i - 1 < n := lt_of_le_of_lt (Nat.sub_le i 1) hi
  simp only [accelerations_impl]
  by_cases hp : 0 < i
  · by_cases hq : i + 1 < n
    · simp only [if_pos hp, if_pos hq, hl i hi, hm i hi, hth i hi, hth (i-1) hprev,
        hth (i+1) hq]
    · simp only [if_pos hp, if_neg hq, hl i hi, hm i hi, hth i hi, hth (i-1) hprev]
  · by_cases hq : i + 1 < n
    · simp only [if_neg hp, if_pos hq, hl i hi, hm i hi, hth i hi, hth (i+1) hq]
    · simp only [if_neg hp, if_neg hq, hl i hi, hm i hi, hth i hi]

/-- `deriv_impl` reads only the first `2n` entries of the packed state and
the first `n` entries of the parameter arrays. -/
lemma deriv_congr (sinF : ℚ → ℚ) (n : ℕ) (lengths lengths' masses masses' y y' : ℕ → ℚ)
    (hl : ∀ i < n, lengths i = lengths' i) (hm : ∀ i < n, masses i = masses' i)
    (hy : ∀ j < 2 * n, y j = y' j) :
    ∀ j < 2 * n, deriv_impl sinF n lengths masses y j =
        deriv_impl sinF n lengths' masses' y' j := by
  intro j hj
  simp only [deriv_impl]
  by_cases hev : j % 2 = 0
  · rw [if_pos hev, if_pos hev, hy (j + 1) (by omega)]
  · rw [if_neg hev, if_neg hev]
    exact accelerations_congr sinF n lengths lengths' masses masses' _ _ _ _ hl hm
      (fun i hi => hy (2 * i) (by omega)) (j / 2) (by omega)

/-- `packY` agrees everywhere when the state slices agree below `n`. -/
lemma packY_congr (n : ℕ) (theta theta' omega omega' : ℕ → ℚ)
    (hth : ∀ i < n, theta i = theta' i) (hom : ∀ i < n, omega i = omega' i) :
    ∀ j, packY n theta omega j = packY n theta' omega' j := by
  intro j
  simp only [packY]
  by_cases hj : j / 2 < n
  · by_cases hev : j % 2 = 0
    · rw [if_pos hj, if_pos hj, if_pos hev, if_pos hev, hth (j / 2) hj]
    · rw [if_pos hj, if_pos hj, if_neg hev, if_neg hev, hom (j / 2) hj]
  · rw [if_neg hj, if_neg hj]

/-- Claim C8: the RK4 stepper is deterministic and reads only its declared
inputs: two invocations whose length-`n` input slices (parameters, angles,
velocities) are identical and whose `dt` is the same produce identical
angle and velocity output slices. -/
theorem C8_step_rk4_deterministic (sinF : ℚ → ℚ) (n : ℕ)
    (lengths lengths' masses masses' theta theta' omega omega' : ℕ → ℚ) (dt : ℚ)
    (hl : ∀ i < n, lengths i = lengths' i) (hm : ∀ i < n, masses i = masses' i)
    (hth : ∀ i < n, theta i = theta' i) (hom : ∀ i < n, omega i = omega' i) :
    ∀ i < n,
      (step_rk4 sinF n lengths masses theta omega dt).1 i =
        (step_rk4 sinF n lengths' masses' theta' omega' dt).1 i ∧
      (step_rk4 sinF n lengths masses theta omega dt).2 i =
        (step_rk4 sinF n lengths' masses' theta' omega' dt).2 i := by
  intro i hi
  have hy := packY_congr n theta theta' omega omega' hth hom
  have hk1 : ∀ j < 2 * n,
      deriv_impl sinF n lengths masses (packY n theta omega) j =
      deriv_impl sinF n lengths' masses' (packY n theta' omega') j :=
    deriv_congr sinF n lengths lengths' masses masses' _ _ hl hm (fun j _ => hy j)
  have htmp1 : ∀ j < 2 * n,
      (fun j => if j < 2 * n then packY n theta omega j +
          1/2 * dt * deriv_impl sinF n lengths masses (packY n theta omega) j else 0) j =
      (fun j => if j < 2 * n then packY n theta' omega' j +
          1/2 * dt * deriv_impl sinF n lengths' masses' (packY n theta' omega') j else 0) j := by
    intro j hj
    simp only [if_pos hj, hy j, hk1 j hj]
  have hk2 := deriv_congr sinF n lengths lengths' masses masses' _ _ hl hm htmp1
  have htmp2 : ∀ j < 2 * n,
      (fun j => if j < 2 * n then packY n theta omega j +
          1/2 * dt * deriv_impl sinF n lengths masses
            (fun j => if j < 2 * n then packY n theta omega j +
              1/2 * dt * deriv_impl sinF n lengths masses (packY n theta omega) j else 0) j
          else 0) j =
      (fun j => if j < 2 * n then packY n theta' omega' j +
          1/2 * dt * deriv_impl sinF n lengths' masses'
            (fun j => if j < 2 * n then packY n theta' omega' j +
              1/2 * dt * deriv_impl sinF n lengths' masses' (packY n theta' omega') j else 0) j
          else 0) j := by
    intro j hj
    simp only [if_pos hj, hy j, hk2 j hj]
  have hk3 := deriv_congr sinF n lengths lengths' masses masses' _ _ hl hm htmp2
  have htmp3 : ∀ j < 2 * n,
      (fun j => if j < 2 * n then packY n theta omega j +
          dt * deriv_impl sinF n lengths masses
            (fun j => if j < 2 * n then packY n theta omega j +
              1/2 * dt * deriv_impl sinF n lengths masses
                (fun j => if j < 2 * n then packY n theta omega j +
                  1/2 * dt * deriv_impl sinF n lengths masses (packY n theta omega) j else 0) j
              else 0) j
          else 0) j =
      (fun j => if j < 2 * n then packY n theta' omega' j +
          dt * deriv_impl sinF n lengths' masses'
            (fun j => if j < 2 * n then packY n theta' omega' j +
              1/2 * dt * deriv_impl sinF n lengths' masses'
                (fun j => if j < 2 * n then packY n theta' omega' j +
                  1/2 * dt * deriv_impl sinF n lengths' masses' (packY n theta' omega') j else 0) j
              else 0) j
          else 0) j := by
    intro j hj
    simp only [if_pos hj, hy j, hk3 j hj]
  have hk4 := deriv_congr sinF n lengths lengths' masses masses' _ _ hl hm htmp3
  constructor
  · simp only [step_rk4]
    rw [if_pos hi, if_pos hi, hth i hi, hk1 (2*i) (by omega), hk2 (2*i) (by omega),
      hk3 (2*i) (by omega), hk4 (2*i) (by omega)]
  · simp only [step_rk4]
    rw [if_pos hi, if_pos hi, hom i hi, hk1 (2*i+1) (by omega), hk2 (2*i+1) (by omega),
      hk3 (2*i+1) (by omega), hk4 (2*i+1) (by omega)]

/-- Witness for C8: two parameter arrays that agree on the single active link
but differ beyond it give the same angle output. -/
theorem C8_witness :
    (∀ i < 1, (fun k : ℕ => if k = 0 then (1:ℚ) else 5) i = (fun k : ℕ => if k = 0 then (1:ℚ) else 7) i) ∧
    (step_rk4 (fun x => x) 1 (fun k => if k = 0 then (1:ℚ) else 5) (fun _ => 1)
        (fun _ => 0) (fun _ => 0) (1/100)).1 0 =
      (step_rk4 (fun x => x) 1 (fun k => if k = 0 then (1:ℚ) else 7) (fun _ => 1)
        (fun _ => 0) (fun _ => 0) (1/100)).1 0 := by
  have hl : ∀ i < 1, (fun k : ℕ => if k = 0 then (1:ℚ) else 5) i =
      (fun k : ℕ => if k = 0 then (1:ℚ) else 7) i := by
    intro i hi
    interval_cases i
    · norm_num
  refine ⟨hl, ?_⟩
  exact ((C8_step_rk4_deterministic (fun x => x) 1 _ _ _ _ _ _ _ _ (1/100) hl
    (fun i _ => rfl) (fun i _ => rfl) (fun i _ => rfl)) 0 (by norm_num)).1

/-- Claim C2: one call to `step_rk4` computes exactly the classical
four-stage RK4 scheme as the spec words it (`rk4_spec`): `k1 = f(y)`,
`k2 = f(y + dt/2·k1)`, `k3 = f(y + dt/2·k2)`, `k4 = f(y + dt·k3)` on the
packed state, followed by the `dt/6`-weighted update of every active link. -/
theorem C2_step_rk4_refines_rk4_spec (sinF : ℚ → ℚ) (n : ℕ)
    (lengths masses theta omega : ℕ → ℚ) (dt : ℚ)
    (_h1 : 1 ≤ n) (_h2 : n ≤ MAX_LINKS) :
    ∀ i < n,
      (step_rk4 sinF n lengths masses theta omega dt).1 i =
        (rk4_spec sinF n lengths masses theta omega dt).1 i ∧
      (step_rk4 sinF n lengths masses theta omega dt).2 i =
        (rk4_spec sinF n lengths masses theta omega dt).2 i := by
  have hlr : ∀ i < n, lengths i = lengths i := fun i _ => rfl
  have hmr : ∀ i < n, masses i = masses i := fun i _ => rfl
  have hy : ∀ j < 2 * n, packY n theta omega j =
      (fun j => if j % 2 = 0 then theta (j / 2) else omega (j / 2)) j := by
    intro j hj
    simp only [packY]
    rw [if_pos (by omega : j / 2 < n)]
  have hk1 := deriv_congr sinF n lengths lengths masses masses _ _ hlr hmr hy
  have htmp1 : ∀ j < 2 * n,
      (fun j => if j < 2 * n then packY n theta omega j +
          1/2 * dt * deriv_impl sinF n lengths masses (packY n theta omega) j else 0) j =
      (fun j => (if j % 2 = 0 then theta (j / 2) else omega (j / 2)) +
          dt/2 * deriv_impl sinF n lengths masses
            (fun j => if j % 2 = 0 then theta (j / 2) else omega (j / 2)) j) j := by
    intro j hj
    simp only [if_pos hj, hy j hj, hk1 j hj]
    ring
  have hk2 := deriv_congr sinF n lengths lengths masses masses _ _ hlr hmr htmp1
  have htmp2 : ∀ j < 2 * n,
      (fun j => if j < 2 * n then packY n theta omega j +
          1/2 * dt * deriv_impl sinF n lengths masses
            (fun j => if j < 2 * n then packY n theta omega j +
              1/2 * dt * deriv_impl sinF n lengths masses (packY n theta omega) j else 0) j
          else 0) j =
      (fun j => (if j % 2 = 0 then theta (j / 2) else omega (j / 2)) +
          dt/2 * deriv_impl sinF n lengths masses
            (fun j => (if j % 2 = 0 then theta (j / 2) else omega (j / 2)) +
              dt/2 * deriv_impl sinF n lengths masses
                (fun j => if j % 2 = 0 then theta (j / 2) else omega (j / 2)) j) j) j := by
    intro j hj
    simp only [if_pos hj, hy j hj, hk2 j hj]
    ring
  have hk3 := deriv_congr sinF n lengths lengths masses masses _ _ hlr hmr htmp2
  have htmp3 : ∀ j < 2 * n,
      (fun j => if j < 2 * n then packY n theta omega j +
          dt * deriv_impl sinF n lengths masses
            (fun j => if j < 2 * n then packY n theta omega j +
              1/2 * dt * deriv_impl sinF n lengths masses
                (fun j => if j < 2 * n then packY n theta omega j +
                  1/2 * dt * deriv_impl sinF n lengths masses (packY n theta omega) j else 0) j
              else 0) j
          else 0) j =
      (fun j => (if j % 2 = 0 then theta (j / 2) else omega (j / 2)) +
          dt * deriv_impl sinF n lengths masses
            (fun j => (if j % 2 = 0 then theta (j / 2) else omega (j / 2)) +
              dt/2 * deriv_impl sinF n lengths masses
                (fun j => (if j % 2 = 0 then theta (j / 2) else omega (j / 2)) +
                  dt/2 * deriv_impl sinF n lengths masses
                    (fun j => if j % 2 = 0 then theta (j / 2) else omega (j / 2)) j) j) j) j := by
    intro j hj
    simp only [if_pos hj, hy j hj, hk3 j hj]
  have hk4 := deriv_congr sinF n lengths lengths masses masses _ _ hlr hmr htmp3
  intro i hi
  constructor
  · simp only [step_rk4, rk4_spec]
    rw [if_pos hi, hk1 (2*i) (by omega), hk2 (2*i) (by omega),
      hk3 (2*i) (by omega), hk4 (2*i) (by omega)]
  · simp only [step_rk4, rk4_spec]
    rw [if_pos hi, hk1 (2*i+1) (by omega), hk2 (2*i+1) (by omega),
      hk3 (2*i+1) (by omega), hk4 (2*i+1) (by omega)]

/-- Witness for C2 at a concrete input (`n = 1`, `i = 0`). -/
theorem C2_witness :
    1 ≤ 1 ∧ 1 ≤ MAX_LINKS ∧ 0 < 1 ∧
    (step_rk4 (fun x => x) 1 (fun _ => 1) (fun _ => 1) (fun _ => 1) (fun _ => 0) (1/100)).1 0 =
      (rk4_spec (fun x => x) 1 (fun _ => 1) (fun _ => 1) (fun _ => 1) (fun _ => 0) (1/100)).1 0 := by
  refine ⟨le_refl 1, by norm_num [MAX_LINKS], by norm_num, ?_⟩
  exact ((C2_step_rk4_refines_rk4_spec (fun x => x) 1 (fun _ => 1) (fun _ => 1)
    (fun _ => 1) (fun _ => 0) (1/100) (le_refl 1) (by norm_num [MAX_LINKS])) 0 (by norm_num)).1

/-- A bounds-checked fill of `m` cells succeeds when `m` fits the capacity. -/
lemma storeLoop_isSome (cap : ℕ) (vals : ℕ → ℚ) :
    ∀ m, m ≤ cap → ∀ buf, (storeLoop cap vals m buf).isSome = true := by
  intro m
  induction m with
  | zero => intro _ buf; rfl
  | succ k ih =>
      intro hm buf
      have hk : k ≤ cap := Nat.le_of_succ_le hm
      have hsome := ih hk buf
      simp only [storeLoop]
      cases hs : storeLoop cap vals k buf with
      | none => rw [hs] at hsome; simp at hsome
      | some b =>
          show (if k < cap then some (Function.update b k (vals k)) else none).isSome = true
          rw [if_pos (by omega : k < cap)]
          rfl

/-- A bounds-checked fill of `m` cells panics when `m` exceeds the capacity. -/
lemma storeLoop_none (cap : ℕ) (vals : ℕ → ℚ) :
    ∀ m, cap < m → ∀ buf, storeLoop cap vals m buf = none := by
  intro m
  induction m with
  | zero => intro h; omega
  | succ k ih =>
      intro hm buf
      simp only [storeLoop]
      rcases Nat.lt_or_ge cap k with hck | hck
      · rw [ih hck buf]
      · cases hs : storeLoop cap vals k buf with
        | none => rfl
        | some b =>
            show (if k < cap then some (Function.update b k (vals k)) else none) = none
            rw [if_neg (by omega : ¬ k < cap)]

/-- The checked interleaved packing loop succeeds when `2n` fits the capacity. -/
lemma packLoop_isSome (cap : ℕ) (theta omega : ℕ → ℚ) :
    ∀ m, 2 * m ≤ cap → ∀ buf, (packLoop cap theta omega m buf).isSome = true := by
  intro m
  induction m with
  | zero => intro _ buf; rfl
  | succ k ih =>
      intro hm buf
      have hk : 2 * k ≤ cap := by omega
      have hsome := ih hk buf
      simp only [packLoop]
      cases hs : packLoop cap theta omega k buf with
      | none => rw [hs] at hsome; simp at hsome
      | some b =>
          show (if 2 * k < cap then
              if 2 * k + 1 < cap then
                some (Function.update (Function.update b (2 * k) (theta k)) (2 * k + 1) (omega k))
              else none
            else none).isSome = true
          rw [if_pos (by omega : 2 * k < cap), if_pos (by omega : 2 * k + 1 < cap)]
          rfl

/-- The checked interleaved packing loop panics when `2n` exceeds the
capacity. -/
lemma packLoop_none (cap : ℕ) (theta omega : ℕ → ℚ) :
    ∀ m, cap < 2 * m → ∀ buf, packLoop cap theta omega m buf = none := by
  intro m
  induction m with
  | zero => intro h; omega
  | succ k ih =>
      intro hm buf
      simp only [packLoop]
      rcases Nat.lt_or_ge cap (2 * k) with hck | hck
      · rw [ih hck buf]
      · cases hs : packLoop cap theta omega k buf with
        | none => rfl
        | some b =>
            show (if 2 * k < cap then
                if 2 * k + 1 < cap then
                  some (Function.update (Function.update b (2 * k) (theta k)) (2 * k + 1) (omega k))
                else none
              else none) = none
            rcases Nat.lt_or_ge (2 * k) cap with h2 | h2
            · rw [if_pos h2, if_neg (by omega : ¬ 2 * k + 1 < cap)]
            · rw [if_neg (by omega : ¬ 2 * k < cap)]

/-- `deriv_checked` panics exactly on `n > MAX_LINKS` (first failing write of
its local `[0.0f32; MAX_LINKS]` arrays). -/
lemma deriv_checked_none_of_gt (sinF : ℚ → ℚ) (n : ℕ) (lengths masses y : ℕ → ℚ)
    (h : MAX_LINKS < n) : deriv_checked sinF n lengths masses y = none := by
  simp only [deriv_checked]
  rw [storeLoop_none MAX_LINKS _ n h]

/-- `deriv_checked` succeeds for every `n ≤ MAX_LINKS`. -/
lemma deriv_checked_isSome_of_le (sinF : ℚ → ℚ) (n : ℕ) (lengths masses y : ℕ → ℚ)
    (h : n ≤ MAX_LINKS) : (deriv_checked sinF n lengths masses y).isSome = true := by
  simp only [deriv_checked]
  have h1 := storeLoop_isSome MAX_LINKS (fun i => y (2 * i)) n h (fun _ => 0)
  cases hs1 : storeLoop MAX_LINKS (fun i => y (2 * i)) n (fun _ => 0) with
  | none => rw [hs1] at h1; simp at h1
  | some thetas =>
      have h2 := storeLoop_isSome MAX_LINKS (fun i => y (2 * i + 1)) n h (fun _ => 0)
      cases hs2 : storeLoop MAX_LINKS (fun i => y (2 * i + 1)) n (fun _ => 0) with
      | none => rw [hs2] at h2; simp at h2
      | some omegas => rfl

/-- `step_rk4_checked` panics on `n > MAX_LINKS`: the very first packing
write out of bounds aborts the call. -/
lemma step_rk4_checked_none_of_gt (sinF : ℚ → ℚ) (n : ℕ)
    (lengths masses theta omega : ℕ → ℚ) (dt : ℚ) (h : MAX_LINKS < n) :
    step_rk4_checked sinF n lengths masses theta omega dt = none := by
  simp only [step_rk4_checked]
  rw [packLoop_none (2 * MAX_LINKS) theta omega n (by omega)]

/-- With `n = 0` the checked stepper succeeds and performs no work: every
loop body runs zero times and the state is returned unchanged. -/
lemma step_rk4_checked_zero (sinF : ℚ → ℚ) (lengths masses theta omega : ℕ → ℚ)
    (dt : ℚ) :
    step_rk4_checked sinF 0 lengths masses theta omega dt = some (theta, omega) := by
  simp only [step_rk4_checked, deriv_checked, packLoop, storeLoop, Nat.mul_zero]
  refine congrArg some (Prod.ext ?_ ?_)
  · funext i
    simp
  · funext i
    simp

/-- Claim C6 (amended): for `n > MAX_LINKS` both core operations fail fast
(out-of-bounds panic on their fixed-size local buffers, modelled as `none`);
for `n == 0` they do NOT reject the call: they return successfully, the
stepper leaving the state unchanged (a silent no-op). -/
theorem C6_invalid_link_count (sinF : ℚ → ℚ) (n : ℕ)
    (lengths masses theta omega y : ℕ → ℚ) (dt : ℚ) :
    (MAX_LINKS < n →
      deriv_checked sinF n lengths masses y = none ∧
      step_rk4_checked sinF n lengths masses theta omega dt = none) ∧
    (n = 0 →
      (deriv_checked sinF n lengths masses y).isSome = true ∧
      step_rk4_checked sinF n lengths masses theta omega dt = some (theta, omega)) := by
  constructor
  · intro h
    exact ⟨deriv_checked_none_of_gt sinF n lengths masses y h,
      step_rk4_checked_none_of_gt sinF n lengths masses theta omega dt h⟩
  · intro h
    subst h
    exact ⟨deriv_checked_isSome_of_le sinF 0 lengths masses y (by norm_num [MAX_LINKS]),
      step_rk4_checked_zero sinF lengths masses theta omega dt⟩

/-- Witness for C6 (amended) at concrete inputs: `n = 8` is rejected,
`n = 0` silently succeeds. -/
theorem C6_witness :
    MAX_LINKS < 8 ∧
    step_rk4_checked (fun x => x) 8 (fun _ => 1) (fun _ => 1) (fun _ => 3) (fun _ => 0) (1/100) = none ∧
    step_rk4_checked (fun x => x) 0 (fun _ => 1) (fun _ => 1) (fun _ => 3) (fun _ => 0) (1/100) =
      some (fun _ => 3, fun _ => 0) := by
  refine ⟨by norm_num [MAX_LINKS], ?_, ?_⟩
  · exact ((C6_invalid_link_count (fun x => x) 8 (fun _ => 1) (fun _ => 1) (fun _ => 3)
      (fun _ => 0) (fun _ => 0) (1/100)).1 (by norm_num [MAX_LINKS])).2
  · exact ((C6_invalid_link_count (fun x => x) 0 (fun _ => 1) (fun _ => 1) (fun _ => 3)
      (fun _ => 0) (fun _ => 0) (1/100)).2 rfl).2

/-- Counterexample to C6 as stated: with `n = 0` the stepper does NOT reject
the call — it returns successfully with the state unchanged (and the
derivative function succeeds as well), i.e. it silently performs no work. -/
theorem C6_counterexample :
    step_rk4_checked (fun x => x) 0 (fun _ => 1) (fun _ => 1) (fun _ => 3) (fun _ => 0) (1/100) =
      some (fun _ => 3, fun _ => 0) ∧
    (deriv_checked (fun x => x) 0 (fun _ => 1) (fun _ => 1) (fun _ => 0)).isSome = true := by
  exact ⟨step_rk4_checked_zero (fun x => x) (fun _ => 1) (fun _ => 1) (fun _ => 3)
    (fun _ => 0) (1/100), rfl⟩

/-- Eviction only removes elements from the front: the result is a suffix. -/
lemma evict_suffix (t : ℚ) : ∀ l : List (ℚ × ℚ), (evict t l).IsSuffix l := by
  intro l
  induction l with
  | nil => simp [evict]
  | cons x rest ih =>
      obtain ⟨old, v⟩ := x
      simp only [evict]
      by_cases hc : HISTORY_SECONDS < t - old ∨ HISTORY_SAMPLES < rest.length + 1
      · rw [if_pos hc]
        exact ih.trans (List.suffix_cons (old, v) rest)
      · rw [if_neg hc]

/-- After eviction the buffer holds at most `HISTORY_SAMPLES` samples. -/
lemma evict_length_le (t : ℚ) : ∀ l : List (ℚ × ℚ), (evict t l).length ≤ HISTORY_SAMPLES := by
  intro l
  induction l with
  | nil => simp [evict, HISTORY_SAMPLES]
  | cons x rest ih =>
      obtain ⟨old, v⟩ := x
      simp only [evict]
      by_cases hc : HISTORY_SECONDS < t - old ∨ HISTORY_SAMPLES < rest.length + 1
      · rw [if_pos hc]; exact ih
      · rw [if_neg hc]
        have h2 : ¬ HISTORY_SAMPLES < rest.length + 1 := fun h => hc (Or.inr h)
        simpa [List.length_cons] using Nat.le_of_not_lt h2

/-- After eviction at time `t`, every surviving sample is within the
`HISTORY_SECONDS` window of `t` (timestamps assumed non-decreasing). -/
lemma evict_window (t : ℚ) : ∀ l : List (ℚ × ℚ),
    List.Pairwise (fun a b : ℚ × ℚ => a.1 ≤ b.1) l →
    ∀ e ∈ evict t l, t - e.1 ≤ HISTORY_SECONDS := by
  intro l
  induction l with
  | nil => intro _ e he; simp [evict] at he
  | cons x rest ih =>
      obtain ⟨old, v⟩ := x
      intro hp
      have hp' := List.pairwise_cons.mp hp
      simp only [evict]
      by_cases hc : HISTORY_SECONDS < t - old ∨ HISTORY_SAMPLES < rest.length + 1
      · rw [if_pos hc]
        exact ih hp'.2
      · rw [if_neg hc]
        intro e he
        have h1 : ¬ HISTORY_SECONDS < t - old := fun h => hc (Or.inl h)
        rcases List.mem_cons.mp he with rfl | hrest
        · exact le_of_not_lt h1
        · have hord : old ≤ e.1 := hp'.1 e hrest
          calc t - e.1 ≤ t - old := sub_le_sub_left hord t
            _ ≤ HISTORY_SECONDS := le_of_not_lt h1

/-- The running invariant of one history buffer relative to the time `t` of
the latest insertion: non-decreasing timestamps, bounded length, and all
samples inside the window ending at `t`. -/
def HInv (t : ℚ) (h : List (ℚ × ℚ)) : Prop :=
  List.Pairwise (fun a b : ℚ × ℚ => a.1 ≤ b.1) h ∧
  h.length ≤ HISTORY_SAMPLES ∧
  ∀ e ∈ h, e.1 ≤ t ∧ t - e.1 ≤ HISTORY_SECONDS

/-- One `pushSample` at a later-or-equal time preserves the invariant. -/
lemma pushSample_HInv (t t' v : ℚ) (h : List (ℚ × ℚ)) (ht : t ≤ t') (hinv : HInv t h) :
    HInv t' (pushSample t' v h) := by
  obtain ⟨hpair, _hlen, hmem⟩ := hinv
  have happ : List.Pairwise (fun a b : ℚ × ℚ => a.1 ≤ b.1) (h ++ [(t', v)]) := by
    rw [List.pairwise_append]
    refine ⟨hpair, List.pairwise_singleton _ _, ?_⟩
    intro a ha b hb
    rcases List.mem_singleton.mp hb with rfl
    exact le_trans (hmem a ha).1 ht
  have hsub := (evict_suffix t' (h ++ [(t', v)])).sublist
  refine ⟨happ.sublist hsub, evict_length_le t' _, ?_⟩
  intro e he
  have hemem : e ∈ h ++ [(t', v)] := hsub.subset he
  constructor
  · rcases List.mem_append.mp hemem with hh | hh
    · exact le_trans (hmem e hh).1 ht
    · rcases List.mem_singleton.mp hh with rfl
      exact le_refl _
  · exact evict_window t' (h ++ [(t', v)]) happ e he

/-- Processing a monotone sequence of pushes preserves the invariant, for
some final reference time at least the starting one. -/
lemma foldl_push_HInv : ∀ (ops : List (ℚ × ℚ)) (h : List (ℚ × ℚ)) (t : ℚ),
    HInv t h → List.Pairwise (fun a b : ℚ × ℚ => a.1 ≤ b.1) ops → (∀ op ∈ ops, t ≤ op.1) →
    ∃ t', t ≤ t' ∧ HInv t' (ops.foldl (fun h op => pushSample op.1 op.2 h) h) := by
  intro ops
  induction ops with
  | nil => intro h t hinv _ _; exact ⟨t, le_refl t, hinv⟩
  | cons op ops ih =>
      intro h t hinv hpair hbound
      have hp' := List.pairwise_cons.mp hpair
      have hstep : HInv op.1 (pushSample op.1 op.2 h) :=
        pushSample_HInv t op.1 op.2 h (hbound op (List.mem_cons_self op ops)) hinv
      have hbound' : ∀ op' ∈ ops, op.1 ≤ op'.1 := fun op' hop' => hp'.1 op' hop'
      obtain ⟨t', ht', hinv'⟩ := ih (pushSample op.1 op.2 h) op.1 hstep hp'.2 hbound'
      exact ⟨t', le_trans (hbound op (List.mem_cons_self op ops)) ht', hinv'⟩

/-- A suffix stays a suffix after appending the same list on the right. -/
lemma isSuffix_append_right {l1 l2 l3 : List (ℚ × ℚ)} (h : l1.IsSuffix l2) :
    (l1 ++ l3).IsSuffix (l2 ++ l3) := by
  obtain ⟨u, hu⟩ := h
  exact ⟨u, by rw [← hu, List.append_assoc]⟩

/-- The buffer left by a fold of pushes is a suffix of the starting buffer
followed by the pushed samples: order of insertion is preserved and only the
front is ever dropped. -/
lemma foldl_push_suffix : ∀ (ops : List (ℚ × ℚ)) (h : List (ℚ × ℚ)),
    (ops.foldl (fun h op => pushSample op.1 op.2 h) h).IsSuffix (h ++ ops) := by
  intro ops
  induction ops with
  | nil => intro h; simp
  | cons op ops ih =>
      intro h
      have h1 : (pushSample op.1 op.2 h).IsSuffix (h ++ [op]) := by
        simpa [pushSample] using evict_suffix op.1 (h ++ [(op.1, op.2)])
      have h2 := ih (pushSample op.1 op.2 h)
      have h3 : ((pushSample op.1 op.2 h) ++ ops).IsSuffix ((h ++ [op]) ++ ops) :=
        isSuffix_append_right h1
      have h4 : ((h ++ [op]) ++ ops) = h ++ (op :: ops) := by simp
      rw [h4] at h3
      exact (h2.trans h3)

/-- Claim C5: after every insertion the history buffer holds at most
`HISTORY_SAMPLES = 1024` samples, its timestamps are non-decreasing and span
at most `HISTORY_SECONDS = 60`, and it is a suffix of the pushed sequence
(front-eviction only, insertion order preserved).  The fold starts from the
empty buffer, which is both the initial state and the state right after a
reset clears the buffers; the hypothesis is the monotonicity of the
wall-clock timestamps supplied by the host. -/
theorem C5_history_buffer_invariant (ops : List (ℚ × ℚ))
    (hmono : List.Pairwise (fun a b : ℚ × ℚ => a.1 ≤ b.1) ops) :
    List.Pairwise (fun a b : ℚ × ℚ => a.1 ≤ b.1) (runPushes ops) ∧
    (runPushes ops).length ≤ HISTORY_SAMPLES ∧
    (∀ a ∈ runPushes ops, ∀ b ∈ runPushes ops, a.1 - b.1 ≤ HISTORY_SECONDS) ∧
    (runPushes ops).IsSuffix ops := by
  have hsuffix : (runPushes ops).IsSuffix ops := by
    simpa [runPushes] using foldl_push_suffix ops []
  cases ops with
  | nil =>
      refine ⟨?_, ?_, ?_, hsuffix⟩
      · simp [runPushes]
      · simp [runPushes, HISTORY_SAMPLES]
      · intro a ha; simp [runPushes] at ha
  | cons op ops' =>
      have hp' := List.pairwise_cons.mp hmono
      have hinv0 : HInv op.1 [] := by
        refine ⟨List.Pairwise.nil, by simp [HISTORY_SAMPLES], ?_⟩
        intro e he; simp at he
      have hbound : ∀ op' ∈ op :: ops', op.1 ≤ op'.1 := by
        intro op' hop'
        rcases List.mem_cons.mp hop' with rfl | hmem
        · exact le_refl _
        · exact hp'.1 op' hmem
      obtain ⟨t', _ht', hpair, hlen, hmem⟩ :=
        foldl_push_HInv (op :: ops') [] op.1 hinv0 hmono hbound
      refine ⟨hpair, hlen, ?_, hsuffix⟩
      intro a ha b hb
      have h1 : a.1 ≤ t' := (hmem a ha).1
      have h2 : t' - b.1 ≤ HISTORY_SECONDS := (hmem b hb).2
      calc a.1 - b.1 ≤ t' - b.1 := sub_le_sub_right h1 b.1
        _ ≤ HISTORY_SECONDS := h2

/-- Witness for C5 at a concrete monotone push sequence. -/
theorem C5_witness :
    List.Pairwise (fun a b : ℚ × ℚ => a.1 ≤ b.1) [((0:ℚ), (1:ℚ)), (30, 2), (100, 3)] ∧
    (runPushes [((0:ℚ), (1:ℚ)), (30, 2), (100, 3)]).length ≤ HISTORY_SAMPLES := by
  have hmono : List.Pairwise (fun a b : ℚ × ℚ => a.1 ≤ b.1) [((0:ℚ), (1:ℚ)), (30, 2), (100, 3)] := by
    norm_num
  exact ⟨hmono, (C5_history_buffer_invariant _ hmono).2.1⟩

/-- The frame-time clamp on a finite value is the ordinary clamp to
`[0, 0.05]`. -/
lemma clampDt_fin_eq (x : ℚ) : clampDt (F32.fin x) = F32.fin (max (min x (1/20)) 0) := rfl

/-- Rust's `NaN.min(0.05).max(0.0)` returns `0.05`: a NaN frame time is
clamped to the upper bound, not to zero. -/
lemma clampDt_nan_eq : clampDt F32.nan = F32.fin (1/20) := by
  rw [show clampDt F32.nan = F32.fin (max (1/20) 0) from rfl,
    max_eq_left (by norm_num : (0:ℚ) ≤ 1/20)]

/-- `(+∞).min(0.05).max(0.0)` returns `0.05`. -/
lemma clampDt_inf_eq : clampDt F32.inf = F32.fin (1/20) := by
  rw [show clampDt F32.inf = F32.fin (max (1/20) 0) from rfl,
    max_eq_left (by norm_num : (0:ℚ) ≤ 1/20)]

/-- `(-∞).min(0.05).max(0.0)` returns `0`. -/
lemma clampDt_ninf_eq : clampDt F32.ninf = F32.fin 0 := rfl

/-- Claim C7 (amended): a finite elapsed time `≤ 0` (and likewise `-∞`)
clamps to `0` and causes no integration and no history sample — the state is
returned unchanged, with no error.  But a non-finite NaN or `+∞` elapsed
time is NOT treated as "no integration": the `min`/`max` clamp maps both to
`0.05`, so integration does run for them. -/
theorem C7_nonpositive_elapsed_is_noop (sinF : ℚ → ℚ) (n : ℕ)
    (lengths masses : ℕ → ℚ) (tOf : ℕ → ℚ) (st : SimState) :
    (∀ x : ℚ, x ≤ 0 → advance sinF n lengths masses tOf (F32.fin x) st = st) ∧
    advance sinF n lengths masses tOf F32.ninf st = st ∧
    clampDt F32.nan = F32.fin (1/20) ∧
    clampDt F32.inf = F32.fin (1/20) := by
  refine ⟨?_, ?_, clampDt_nan_eq, clampDt_inf_eq⟩
  · intro x hx
    have hc : clampDt (F32.fin x) = F32.fin 0 := by
      rw [clampDt_fin_eq, min_eq_left (le_trans hx (by norm_num)), max_eq_right hx]
    simp only [advance, hc]
    rw [if_neg (lt_irrefl (0:ℚ))]
  · simp only [advance, clampDt_ninf_eq]
    rw [if_neg (lt_irrefl (0:ℚ))]

/-- Witness for C7 (amended) at a concrete nonpositive elapsed time. -/
theorem C7_witness :
    (-1 : ℚ) ≤ 0 ∧
    advance (fun x => x) 1 (fun _ => 1) (fun _ => 1) (fun _ => 0) (F32.fin (-1))
      ⟨fun _ => 0, fun _ => 0, fun _ => []⟩ =
      ⟨fun _ => 0, fun _ => 0, fun _ => []⟩ := by
  refine ⟨by norm_num, ?_⟩
  exact (C7_nonpositive_elapsed_is_noop (fun x => x) 1 (fun _ => 1) (fun _ => 1)
    (fun _ => 0) ⟨fun _ => 0, fun _ => 0, fun _ => []⟩).1 (-1) (by norm_num)

/-- At time `0`, pushing into a buffer whose samples are all at time `0` and
which has room evicts nothing. -/
lemma evict_zero_times (l : List (ℚ × ℚ)) (hts : ∀ e ∈ l, e.1 = 0)
    (hlen : l.length ≤ HISTORY_SAMPLES) : evict 0 l = l := by
  cases l with
  | nil => rfl
  | cons x rest =>
      obtain ⟨old, v⟩ := x
      simp only [evict]
      rw [if_neg]
      intro hcon
      have hold : old = 0 := hts (old, v) (List.mem_cons_self _ _)
      rcases hcon with h1 | h2
      · rw [hold] at h1
        norm_num [HISTORY_SECONDS] at h1
      · simp only [List.length_cons] at hlen
        omega

/-- At time `0`, `pushSample` on such a buffer is a plain append. -/
lemma pushSample_zero_times (v : ℚ) (h : List (ℚ × ℚ)) (hts : ∀ e ∈ h, e.1 = 0)
    (hlen : h.length + 1 ≤ HISTORY_SAMPLES) : pushSample 0 v h = h ++ [(0, v)] := by
  unfold pushSample
  apply evict_zero_times
  · intro e he
    rcases List.mem_append.mp he with hh | hh
    · exact hts e hh
    · rcases List.mem_singleton.mp hh with rfl
      rfl
  · simpa using hlen

/-- Running `k` sub-steps with a constantly-zero clock grows link 0's
history by exactly one sample per sub-step. -/
lemma runSub_hist_length (sinF : ℚ → ℚ) (lengths masses : ℕ → ℚ) (sub : ℚ) :
    ∀ (k : ℕ) (tOf : ℕ → ℚ) (st : SimState), (∀ s, tOf s = 0) →
    (∀ e ∈ st.hist 0, e.1 = 0) →
    (st.hist 0).length + k ≤ HISTORY_SAMPLES →
    ((runSub sinF 1 lengths masses sub tOf k st).hist 0).length = (st.hist 0).length + k ∧
    (∀ e ∈ (runSub sinF 1 lengths masses sub tOf k st).hist 0, e.1 = 0) := by
  intro k
  induction k with
  | zero => intro tOf st _ hts _; exact ⟨rfl, hts⟩
  | succ k ih =>
      intro tOf st htOf hts hlen
      have hg : (guiStepRK4 sinF 1 lengths masses sub st).hist = st.hist := rfl
      have hpush : (push_histories 1 (tOf 0) (guiStepRK4 sinF 1 lengths masses sub st)).hist 0 =
          st.hist 0 ++ [(0, (guiStepRK4 sinF 1 lengths masses sub st).theta 0)] := by
        simp only [push_histories, hg]
        rw [if_pos (by norm_num : (0:ℕ) < 1), htOf 0]
        exact pushSample_zero_times _ _ hts (by omega)
      have hts' : ∀ e ∈ (push_histories 1 (tOf 0)
          (guiStepRK4 sinF 1 lengths masses sub st)).hist 0, e.1 = 0 := by
        rw [hpush]
        intro e he
        rcases List.mem_append.mp he with hh | hh
        · exact hts e hh
        · rcases List.mem_singleton.mp hh with rfl
          rfl
      have hlen' : ((push_histories 1 (tOf 0)
          (guiStepRK4 sinF 1 lengths masses sub st)).hist 0).length + k ≤ HISTORY_SAMPLES := by
        rw [hpush]
        simp only [List.length_append, List.length_singleton]
        omega
      have := ih (fun s => tOf (s + 1)) _ (fun s => htOf (s + 1)) hts' hlen'
      simp only [runSub]
      refine ⟨?_, this.2⟩
      rw [this.1, hpush]
      simp only [List.length_append, List.length_singleton]
      omega

/-- Counterexample to C7 as stated: a NaN elapsed time is NOT treated as
"no integration this call".  The clamp `NaN.min(0.05).max(0.0)` yields
`0.05`, and the advance then runs 10 sub-steps, recording 10 history samples
for link 0 (starting from an empty buffer), so the state is changed. -/
theorem C7_counterexample :
    clampDt F32.nan = F32.fin (1/20) ∧
    ((advance (fun _ => 0) 1 (fun _ => 1) (fun _ => 1) (fun _ => 0) F32.nan
        ⟨fun _ => 0, fun _ => 0, fun _ => []⟩).hist 0).length = 10 := by
  have h10 : ((1:ℚ)/20) / (5/1000) = 10 := by norm_num
  have hsub : substeps (1/20) = 10 := by
    simp only [substeps, h10]
    norm_num
    rfl
  refine ⟨clampDt_nan_eq, ?_⟩
  simp only [advance, clampDt_nan_eq]
  rw [if_pos (by norm_num : (0:ℚ) < 1/20), hsub]
  have := runSub_hist_length (fun _ => 0) (fun _ => 1) (fun _ => 1) ((1/20) / ((10:ℕ) : ℚ))
    10 (fun _ => 0) ⟨fun _ => 0, fun _ => 0, fun _ => []⟩ (fun _ => rfl)
    (by intro e he; simp at he) (by simp [HISTORY_SAMPLES])
  simpa using this.1

/-- Claim C3: the per-frame advance clamps the elapsed time into
`[0, 0.05]`; when the clamped value `c` is positive it runs exactly
`substeps c = max(ceil(c/0.005), 1)` RK4 sub-steps (each followed by a
history push, which is what `runSub` iterates), all with the same sub-step
size `c / steps`, which never exceeds `0.005`; the total simulated time is
`steps · (c/steps) = c ≤ 0.05`, so any elapsed input — e.g. 10 seconds —
integrates at most `0.05 s`. -/
theorem C3_substep_controller (sinF : ℚ → ℚ) (n : ℕ) (lengths masses : ℕ → ℚ)
    (tOf : ℕ → ℚ) (e : F32) (st : SimState) (c : ℚ)
    (hc : clampDt e = F32.fin c) :
    0 ≤ c ∧ c ≤ 1/20 ∧
    (0 < c →
      substeps c = max (Int.toNat ⌈c / (5/1000)⌉) 1 ∧
      1 ≤ substeps c ∧
      c / (substeps c : ℚ) ≤ 5/1000 ∧
      (substeps c : ℚ) * (c / (substeps c : ℚ)) = c ∧
      advance sinF n lengths masses tOf e st =
        runSub sinF n lengths masses (c / (substeps c : ℚ)) tOf (substeps c) st) := by
  have hbounds : 0 ≤ c ∧ c ≤ 1/20 := by
    cases e with
    | nan =>
        rw [clampDt_nan_eq] at hc
        injection hc with h
        subst h
        norm_num
    | inf =>
        rw [clampDt_inf_eq] at hc
        injection hc with h
        subst h
        norm_num
    | ninf =>
        rw [clampDt_ninf_eq] at hc
        injection hc with h
        subst h
        norm_num
    | fin x =>
        rw [clampDt_fin_eq] at hc
        injection hc with h
        subst h
        constructor
        · exact le_max_right _ _
        · exact max_le (min_le_right _ _) (by norm_num)
  refine ⟨hbounds.1, hbounds.2, ?_⟩
  intro hpos
  have hceil : (0:ℤ) < ⌈c / (5/1000)⌉ :=
    Int.ceil_pos.mpr (div_pos hpos (by norm_num))
  have hcast : ((Int.toNat ⌈c / (5/1000)⌉ : ℤ)) = ⌈c / (5/1000)⌉ :=
    Int.toNat_of_nonneg (le_of_lt hceil)
  have h1le : 1 ≤ Int.toNat ⌈c / (5/1000)⌉ := by omega
  have hsteps : substeps c = Int.toNat ⌈c / (5/1000)⌉ := by
    simp only [substeps]
    exact max_eq_left h1le
  have hstepsQ : (0:ℚ) < (substeps c : ℚ) := by
    have : 1 ≤ substeps c := by rw [hsteps]; exact h1le
    exact_mod_cast Nat.lt_of_lt_of_le Nat.zero_lt_one this
  have hle : c / (5/1000) ≤ ((substeps c : ℕ) : ℚ) := by
    rw [hsteps]
    have h1 := Int.le_ceil (c / (5/1000))
    rwa [← hcast, Int.cast_natCast] at h1
  have hcle : c ≤ (substeps c : ℚ) * (5/1000) := by
    have := (div_le_iff₀ (by norm_num : (0:ℚ) < 5/1000)).mp hle
    linarith
  refine ⟨rfl, by rw [hsteps]; exact h1le, ?_, ?_, ?_⟩
  · exact (div_le_iff₀ hstepsQ).mpr (by linarith)
  · rw [mul_comm]
    exact div_mul_cancel₀ c (ne_of_gt hstepsQ)
  · simp only [advance, hc]
    rw [if_pos hpos]

/-- Witness for C3: an elapsed time of 10 seconds clamps to `0.05` and the
advance integrates at most that. -/
theorem C3_witness :
    clampDt (F32.fin 10) = F32.fin (1/20) ∧
    (0 ≤ (1/20 : ℚ) ∧ (1/20 : ℚ) ≤ 1/20 ∧
      (0 < (1/20 : ℚ) →
        substeps (1/20) = max (Int.toNat ⌈(1/20 : ℚ) / (5/1000)⌉) 1 ∧
        1 ≤ substeps (1/20) ∧
        (1/20 : ℚ) / (substeps (1/20) : ℚ) ≤ 5/1000 ∧
        (substeps (1/20) : ℚ) * ((1/20 : ℚ) / (substeps (1/20) : ℚ)) = 1/20 ∧
        advance (fun x => x) 1 (fun _ => 1) (fun _ => 1) (fun _ => 0) (F32.fin 10)
            ⟨fun _ => 0, fun _ => 0, fun _ => []⟩ =
          runSub (fun x => x) 1 (fun _ => 1) (fun _ => 1)
            ((1/20 : ℚ) / (substeps (1/20) : ℚ)) (fun _ => 0) (substeps (1/20))
            ⟨fun _ => 0, fun _ => 0, fun _ => []⟩)) := by
  have hc : clampDt (F32.fin 10) = F32.fin (1/20) := by
    rw [clampDt_fin_eq, min_eq_right (by norm_num : (1:ℚ)/20 ≤ 10),
      max_eq_left (by norm_num : (0:ℚ) ≤ 1/20)]
  exact ⟨hc, C3_substep_controller (fun x => x) 1 (fun _ => 1) (fun _ => 1) (fun _ => 0)
    (F32.fin 10) ⟨fun _ => 0, fun _ => 0, fun _ => []⟩ (1/20) hc⟩

end PendulumLab
